import Mathlib

/-!
Verification of the gamma-cat output pipeline (`gammacat/output.py`).

The filesystem is modelled as an association list from paths (lists of
components) to nodes (regular files with content, or directories).  JSON
documents are modelled by an ordered `JValue` tree, mirroring the
`OrderedDict`-based index documents the code writes.  External collaborators
(`gammacat_tag`, `gammacat_info`, `InputData`, `SEDList`, `write_json`) are
not part of the examined source; following the specification they are
treated as opaque parameters bundled in environment structures.
-/

/-- Ordered JSON value, as produced by the `OrderedDict`-based index builders
and preserved by the order-keeping JSON writer. -/
inductive JValue : Type where
  | str (s : String)
  | num (n : Int)
  | arr (xs : List JValue)
  | obj (fields : List (String × JValue))

/-- Content of a regular file in the output tree: an ECSV text table or a
JSON document. -/
inductive FileContent : Type where
  | ecsv (text : String)
  | json (doc : JValue)

/-- A filesystem node: a regular file or a directory. -/
inductive FsNode : Type where
  | file (content : FileContent)
  | dir

/-- A path, as its list of components. -/
abbrev FPath := List String

/-- The filesystem: a finite association of paths to nodes. -/
abbrev FileSystem := List (FPath × FsNode)

/-- Does the filesystem contain an entry at path `p`? -/
def containsKey (fs : FileSystem) (p : FPath) : Bool :=
  fs.any (fun e => decide (e.1 = p))

/-- Look up the node stored at path `p`. -/
def lookupFs : FileSystem → FPath → Option FsNode
  | [], _ => none
  | e :: t, p => if e.1 = p then some e.2 else lookupFs t p

/-- Store node `c` at path `p`: overwrite in place when the path exists,
append a fresh entry otherwise (a whole-file overwriting write). -/
def setk (fs : FileSystem) (p : FPath) (c : FsNode) : FileSystem :=
  if containsKey fs p then fs.map (fun e => if e.1 = p then (e.1, c) else e)
  else fs ++ [(p, c)]

/-- `mkdir` with `exist_ok=True`: create a directory at `p` unless an entry
already exists there. -/
def ensureDir (fs : FileSystem) (p : FPath) : FileSystem :=
  if containsKey fs p then fs else fs ++ [(p, FsNode.dir)]

/-- The chain of ancestors created by `mkdir(parents=True)` on directory `q`:
its nonempty prefixes, shortest first. -/
def ancestorDirs (q : FPath) : List FPath :=
  (List.range q.length).map (fun n => q.take (n + 1))

/-- A single filesystem mutation performed by the maker: a file write or a
directory creation. -/
inductive FsOp : Type where
  | write (p : FPath) (c : FsNode)
  | ensure (p : FPath)

/-- The path an operation touches. -/
def FsOp.key : FsOp → FPath
  | .write p _ => p
  | .ensure p => p

/-- Run one operation on the filesystem. -/
def applyOp (fs : FileSystem) : FsOp → FileSystem
  | .write p c => setk fs p c
  | .ensure p => ensureDir fs p

/-- Run a list of operations left to right. -/
def applyOps (fs : FileSystem) (ops : List FsOp) : FileSystem :=
  ops.foldl applyOp fs

/-- The content of the last `write` to path `k` in `ops`, if any. -/
def finalWrite : List FsOp → FPath → Option FsNode
  | [], _ => none
  | op :: rest, k =>
    match finalWrite rest k with
    | some c => some c
    | none =>
      match op with
      | .write p c => if p = k then some c else none
      | .ensure _ => none

/-- Set every entry of `fs` to the last value `ops` writes at its path,
keeping entries untouched by any write. -/
def updVals (fs : FileSystem) (ops : List FsOp) : FileSystem :=
  fs.map (fun e =>
    match finalWrite ops e.1 with
    | some c => (e.1, c)
    | none => e)

/-- Render a relative path the way `str(Path)` does. -/
def pathStr (p : FPath) : String :=
  String.intercalate "/" p

/-- `Path.relative_to`: strip `root` from the front of `p` when `root` is a
prefix of `p`. -/
def stripRoot : FPath → FPath → Option FPath
  | [], p => some p
  | _, [] => none
  | r :: rs, x :: xs => if r = x then stripRoot rs xs else none

/-- The glob pattern `*`, which matches every name. -/
def matchAll : String → Bool := fun _ => true

/-- `Path.rglob(pattern)`: every entry strictly below `root` whose final
component matches the pattern. -/
def rglob (fs : FileSystem) (root : FPath) (pat : String → Bool) :
    List (FPath × FsNode) :=
  fs.filter (fun e =>
    match stripRoot root e.1 with
    | some rel => !rel.isEmpty && pat (e.1.getLastD "")
    | none => false)

/-- Is the node a regular file? -/
def isFileNode : FsNode → Bool
  | .file _ => true
  | .dir => false

/-- `OutputData.list_of_files`: the regular files below `root` matching the
pattern, as path strings relative to `root`. -/
def list_of_files (fs : FileSystem) (root : FPath) (pat : String → Bool) :
    List String :=
  ((rglob fs root pat).filter (fun e => isFileNode e.2)).map
    (fun e => pathStr (e.1.drop root.length))

/-- Modelled from the spec: the `gammacat_tag` collaborator (not part of the
examined source), exposing `source_dataset_filename` and `source_str` as
opaque functions of the metadata record. -/
structure GammacatTag (Meta : Type) : Type where
  source_dataset_filename : Meta → String
  source_str : Meta → String

/-- `OutputDataConfig.path`: `gammacat_info.base_dir / 'docs/data'`. -/
def outputPath (base_dir : FPath) : FPath :=
  base_dir ++ ["docs", "data"]

/-- `OutputDataConfig.index_datasets_json`. -/
def index_datasets_json (base_dir : FPath) : FPath :=
  outputPath base_dir ++ ["gammacat-datasets.json"]

/-- `OutputDataConfig.index_sources_json`. -/
def index_sources_json (base_dir : FPath) : FPath :=
  outputPath base_dir ++ ["gammacat-sources.json"]

/-- `OutputDataConfig.make_filename`: derive the per-source output filename
from a metadata record, the datatype and the relative flag.  An unrecognized
datatype raises `ValueError`, modelled by `Except.error`. -/
def make_filename {Meta : Type} (tag : GammacatTag Meta) (base_dir : FPath)
    (meta : Meta) (datatype : String) (relative : Bool) :
    Except String FPath :=
  let t := tag.source_dataset_filename meta
  let base_path : FPath := if relative then [] else outputPath base_dir
  let source_path := base_path ++ ["sources", tag.source_str meta]
  if datatype = "sed" then Except.ok (source_path ++ [t ++ "_sed.ecsv"])
  else if datatype = "lc" then Except.ok (source_path ++ [t ++ "_lc.ecsv"])
  else Except.error ("Invalid datatype: " ++ datatype)

/-- A validation log message: one `log.error` emission of
`log_list_difference`. -/
inductive LogMsg : Type where
  | missing (paths : List String)
  | extra (paths : List String)
deriving DecidableEq

/-- `sorted(set(xs) - set(ys))`: the distinct members of `xs` absent from
`ys`, in increasing order. -/
def sortedSetDiff (xs ys : List String) : List String :=
  List.insertionSort (· ≤ ·) ((xs.filter (fun x => decide (x ∉ ys))).dedup)

/-- `log_list_difference`: log the sorted missing set, when nonempty, then
the sorted extra set, when nonempty. -/
def log_list_difference (actual expected : List String) : List LogMsg :=
  let missing := sortedSetDiff expected actual
  let extra := sortedSetDiff actual expected
  (if missing = [] then [] else [LogMsg.missing missing]) ++
    (if extra = [] then [] else [LogMsg.extra extra])

/-- Modelled from the spec: one SED entity as this core sees it — its table
metadata (consumed by filename derivation) together with the ECSV text its
table serializes to. -/
structure SEDEntity (Meta : Type) : Type where
  meta : Meta
  ecsv : String

/-- Modelled from the spec: the collaborators `OutputDataMaker` consumes —
the tagging functions, `gammacat_info` (base directory and catalog metadata),
the cached `InputData` (dataset records, source records, SED collection) and
the opaque per-SED `process` step. -/
structure MakerEnv (Meta : Type) : Type where
  tag : GammacatTag Meta
  base_dir : FPath
  info_dict : List (String × JValue)
  datasets_data : List JValue
  sources_data : List JValue
  seds : List (SEDEntity Meta)
  process : SEDEntity Meta → SEDEntity Meta

/-- `OutputDataMaker.make_sed_files`: for each SED, process it, derive its
output path, create the parent directories, and write the ECSV table,
overwriting any existing file.  The datatype is the literal `"sed"`, so the
filename derivation never fails; the error branch of the match is dead. -/
def make_sed_files {Meta : Type} (env : MakerEnv Meta) (fs : FileSystem) :
    FileSystem :=
  env.seds.foldl (fun fs sed =>
    let s := env.process sed
    let path : FPath :=
      match make_filename env.tag env.base_dir s.meta "sed" false with
      | Except.ok p => p
      | Except.error _ => []
    let fs1 := (ancestorDirs path.dropLast).foldl ensureDir fs
    setk fs1 path (FsNode.file (FileContent.ecsv s.ecsv))) fs

/-- `OutputDataMaker.make_index_files_datasets`: build the ordered document
`info`, `data`, `files` — the `files` value being the scan of the current
tree — and write it as JSON at the dataset-index path. -/
def make_index_files_datasets {Meta : Type} (env : MakerEnv Meta)
    (fs : FileSystem) : FileSystem :=
  let data : List (String × JValue) :=
    [("info", JValue.obj env.info_dict),
     ("data", JValue.arr env.datasets_data),
     ("files", JValue.arr
       ((list_of_files fs (outputPath env.base_dir) matchAll).map JValue.str))]
  setk fs (index_datasets_json env.base_dir)
    (FsNode.file (FileContent.json (JValue.obj data)))

/-- `OutputDataMaker.make_index_files_sources`: build the ordered document
`info`, `data` and write it as JSON at the source-index path. -/
def make_index_files_sources {Meta : Type} (env : MakerEnv Meta)
    (fs : FileSystem) : FileSystem :=
  let data : List (String × JValue) :=
    [("info", JValue.obj env.info_dict),
     ("data", JValue.arr env.sources_data)]
  setk fs (index_sources_json env.base_dir)
    (FsNode.file (FileContent.json (JValue.obj data)))

/-- `OutputDataMaker.make_index_files`: datasets index, then sources index. -/
def make_index_files {Meta : Type} (env : MakerEnv Meta) (fs : FileSystem) :
    FileSystem :=
  make_index_files_sources env (make_index_files_datasets env fs)

/-- `OutputDataMaker.make_all`: SED files first, then the index files. -/
def make_all {Meta : Type} (env : MakerEnv Meta) (fs : FileSystem) :
    FileSystem :=
  make_index_files env (make_sed_files env fs)

/-- The operations `make_sed_files` performs, flattened: per SED, the
ancestor-directory creations followed by the file write. -/
def sedOps {Meta : Type} (env : MakerEnv Meta) : List FsOp :=
  env.seds.flatMap (fun sed =>
    let s := env.process sed
    let path : FPath :=
      match make_filename env.tag env.base_dir s.meta "sed" false with
      | Except.ok p => p
      | Except.error _ => []
    (ancestorDirs path.dropLast).map FsOp.ensure ++
      [FsOp.write path (FsNode.file (FileContent.ecsv s.ecsv))])

/-- Modelled from the spec: the inputs `OutputData.validate_list_of_files`
consumes — the tree on disk, the tagging functions and base directory, the
`files` list stored in the dataset index read from disk, and the metadata of
the SED collection re-read by `SEDList.read()`. -/
structure ValidationEnv (Meta : Type) : Type where
  tag : GammacatTag Meta
  base_dir : FPath
  fs : FileSystem
  index_files : List String
  sed_metas : List Meta

/-- A list comprehension over fallible elements: the first failure
propagates, as an uncaught exception would. -/
def mapExcept {α β ε : Type} (f : α → Except ε β) : List α → Except ε (List β)
  | [] => Except.ok []
  | a :: l => do
    let b ← f a
    let bs ← mapExcept f l
    Except.ok (b :: bs)

/-- The fixed extra top-level filenames expected by the validator. -/
def expected_files_extra : List String :=
  ["README.md",
   "gammacat-datasets.json",
   "gammacat-sources.json",
   "gammacat.fits.gz",
   "gammacat.ecsv",
   "gammacat.yaml"]

/-- `OutputData.validate_list_of_files`: scan the tree, compare against the
stored index `files` list, then compare against the freshly derived
expectation (fixed extra files plus each SED's relative filename).  Any
exception a filename derivation raised would propagate through the
`Except` monad. -/
def validate_list_of_files {Meta : Type} (env : ValidationEnv Meta) :
    Except String (List LogMsg) := do
  let actual := list_of_files env.fs (outputPath env.base_dir) matchAll
  let msgs1 := log_list_difference actual env.index_files
  let sed_paths ← mapExcept
    (fun m => make_filename env.tag env.base_dir m "sed" true) env.sed_metas
  let expected_files_sed := sed_paths.map pathStr
  let expected_files := expected_files_extra ++ expected_files_sed
  let msgs2 := log_list_difference actual expected_files
  Except.ok (msgs1 ++ msgs2)

/-- The scan the validator performs, as a standalone function. -/
def actualFilesOf {Meta : Type} (env : ValidationEnv Meta) : List String :=
  list_of_files env.fs (outputPath env.base_dir) matchAll

/-- The freshly derived expected file list: the six fixed top-level names
plus the relative SED filename of every SED entity. -/
def derivedExpectedOf {Meta : Type} (env : ValidationEnv Meta) : List String :=
  expected_files_extra ++
    env.sed_metas.map (fun m =>
      pathStr ["sources", env.tag.source_str m,
        env.tag.source_dataset_filename m ++ "_sed.ecsv"])

/-- Is the message a Missing report? -/
def isMissingMsg : LogMsg → Bool
  | .missing _ => true
  | .extra _ => false

/-- Is the message an Extra report? -/
def isExtraMsg : LogMsg → Bool
  | .missing _ => false
  | .extra _ => true

/-- A concrete tagging collaborator over trivial metadata, for evaluating
the theorems below at concrete inputs. -/
def unitTag : GammacatTag Unit :=
  { source_dataset_filename := fun _ => "tag1", source_str := fun _ => "src1" }

/-- A concrete two-entry output tree: one regular file and one directory. -/
def fsW : FileSystem :=
  [(["r", "a.txt"], FsNode.file (FileContent.ecsv "x")),
   (["r", "d"], FsNode.dir)]

theorem make_filename_sed {Meta : Type} (tag : GammacatTag Meta)
    (base_dir : FPath) (m : Meta) (rel : Bool) :
    make_filename tag base_dir m "sed" rel =
      Except.ok ((if rel then ([] : FPath) else outputPath base_dir) ++
        ["sources", tag.source_str m] ++
        [tag.source_dataset_filename m ++ "_sed.ecsv"]) := by
  simp [make_filename]

theorem make_filename_lc {Meta : Type} (tag : GammacatTag Meta)
    (base_dir : FPath) (m : Meta) (rel : Bool) :
    make_filename tag base_dir m "lc" rel =
      Except.ok ((if rel then ([] : FPath) else outputPath base_dir) ++
        ["sources", tag.source_str m] ++
        [tag.source_dataset_filename m ++ "_lc.ecsv"]) := by
  simp [make_filename]

/-- C4: for every metadata record, `make_filename` with datatype `sed`
returns `<source_dir>/<tag>_sed.ecsv` and with `lc` returns
`<source_dir>/<tag>_lc.ecsv`, where the source directory is
`sources/<source_str m>` beneath the configured base path when
`relative = false` (and bare when `relative = true`), and the tag is
`source_dataset_filename m`. -/
theorem C4_make_filename_paths {Meta : Type} (tag : GammacatTag Meta)
    (base_dir : FPath) (m : Meta) (rel : Bool) :
    make_filename tag base_dir m "sed" rel =
      Except.ok ((if rel then ([] : FPath) else outputPath base_dir) ++
        ["sources", tag.source_str m] ++
        [tag.source_dataset_filename m ++ "_sed.ecsv"]) ∧
    make_filename tag base_dir m "lc" rel =
      Except.ok ((if rel then ([] : FPath) else outputPath base_dir) ++
        ["sources", tag.source_str m] ++
        [tag.source_dataset_filename m ++ "_lc.ecsv"]) :=
  ⟨make_filename_sed tag base_dir m rel, make_filename_lc tag base_dir m rel⟩

/-- C5: `make_filename` fails with the invalid-argument error exactly when
the datatype is neither `sed` nor `lc`; for `sed` and `lc` it returns a
path.  The failure is the returned `Except.error` of that single call, so
it aborts only that filename computation. -/
theorem C5_make_filename_error_iff {Meta : Type} (tag : GammacatTag Meta)
    (base_dir : FPath) (m : Meta) (datatype : String) (rel : Bool) :
    ((∃ e, make_filename tag base_dir m datatype rel = Except.error e) ↔
      (datatype ≠ "sed" ∧ datatype ≠ "lc")) ∧
    ((∃ p, make_filename tag base_dir m datatype rel = Except.ok p) ↔
      (datatype = "sed" ∨ datatype = "lc")) := by
  by_cases h1 : datatype = "sed"
  · subst h1
    simp [make_filename]
  · by_cases h2 : datatype = "lc"
    · subst h2
      simp [make_filename]
    · simp [make_filename, h1, h2]

/-- C6: for every metadata record and datatype in the set of `sed` and
`lc`, the relative path is a strict suffix of the absolute path, the
difference being exactly the configured base output directory. -/
theorem C6_relative_strict_suffix {Meta : Type} (tag : GammacatTag Meta)
    (base_dir : FPath) (m : Meta) (datatype : String)
    (h : datatype = "sed" ∨ datatype = "lc") :
    ∃ r a, make_filename tag base_dir m datatype true = Except.ok r ∧
      make_filename tag base_dir m datatype false = Except.ok a ∧
      a = outputPath base_dir ++ r ∧ r <:+ a ∧ r ≠ a := by
  rcases h with h | h <;> subst h
  · refine ⟨["sources", tag.source_str m,
      tag.source_dataset_filename m ++ "_sed.ecsv"],
      outputPath base_dir ++ ["sources", tag.source_str m,
        tag.source_dataset_filename m ++ "_sed.ecsv"], ?_, ?_, rfl, ?_, ?_⟩
    · simpa using make_filename_sed tag base_dir m true
    · simpa [List.append_assoc] using make_filename_sed tag base_dir m false
    · exact ⟨outputPath base_dir, rfl⟩
    · intro heq
      have hlen := congrArg List.length heq
      simp [outputPath] at hlen
  · refine ⟨["sources", tag.source_str m,
      tag.source_dataset_filename m ++ "_lc.ecsv"],
      outputPath base_dir ++ ["sources", tag.source_str m,
        tag.source_dataset_filename m ++ "_lc.ecsv"], ?_, ?_, rfl, ?_, ?_⟩
    · simpa using make_filename_lc tag base_dir m true
    · simpa [List.append_assoc] using make_filename_lc tag base_dir m false
    · exact ⟨outputPath base_dir, rfl⟩
    · intro heq
      have hlen := congrArg List.length heq
      simp [outputPath] at hlen

/-- C6 witness: the strict-suffix relation evaluated at a concrete tagging
collaborator, base directory and metadata record. -/
theorem C6_relative_strict_suffix_witness :
    ∃ r a, make_filename unitTag ["base"] () "sed" true = Except.ok r ∧
      make_filename unitTag ["base"] () "sed" false = Except.ok a ∧
      a = outputPath ["base"] ++ r ∧ r <:+ a ∧ r ≠ a :=
  C6_relative_strict_suffix unitTag ["base"] () "sed" (Or.inl rfl)

theorem mem_sortedSetDiff (xs ys : List String) (x : String) :
    x ∈ sortedSetDiff xs ys ↔ (x ∈ xs ∧ x ∉ ys) := by
  simp [sortedSetDiff, List.mem_insertionSort, List.mem_dedup, List.mem_filter]

theorem sorted_sortedSetDiff (xs ys : List String) :
    List.Sorted (· ≤ ·) (sortedSetDiff xs ys) :=
  List.sorted_insertionSort _ _

theorem nodup_sortedSetDiff (xs ys : List String) :
    (sortedSetDiff xs ys).Nodup :=
  (List.perm_insertionSort _ _).symm.nodup (List.nodup_dedup _)

theorem sortedSetDiff_congr {xs xs' ys ys' : List String}
    (hx : ∀ v, v ∈ xs ↔ v ∈ xs') (hy : ∀ v, v ∈ ys ↔ v ∈ ys') :
    sortedSetDiff xs ys = sortedSetDiff xs' ys' := by
  apply List.eq_of_perm_of_sorted (r := (· ≤ ·)) ?_
    (sorted_sortedSetDiff xs ys) (sorted_sortedSetDiff xs' ys')
  apply (List.perm_ext_iff_of_nodup (nodup_sortedSetDiff xs ys)
    (nodup_sortedSetDiff xs' ys')).mpr
  intro v
  rw [mem_sortedSetDiff, mem_sortedSetDiff, hx v]
  constructor
  · rintro ⟨h1, h2⟩
    exact ⟨h1, fun hv => h2 ((hy v).mpr hv)⟩
  · rintro ⟨h1, h2⟩
    exact ⟨h1, fun hv => h2 ((hy v).mp hv)⟩

theorem sortedSetDiff_self (xs : List String) : sortedSetDiff xs xs = [] := by
  have h : xs.filter (fun x => decide (x ∉ xs)) = [] := by
    rw [List.filter_eq_nil_iff]
    intro a ha
    simp [ha]
  unfold sortedSetDiff
  rw [h]
  rfl

/-- C3: `log_list_difference` logs exactly one Missing report — the sorted
list of the elements of `expected` absent from `actual` — exactly when that
set is nonempty, and exactly one Extra report — the sorted list of the
elements of `actual` absent from `expected` — exactly when that set is
nonempty; on equal lists it logs nothing; and on the concrete pair
`["a","b"]` versus `["b","c"]` it logs Missing `["c"]` and Extra `["a"]`. -/
theorem C3_log_list_difference_spec (actual expected : List String) :
    (∀ l, LogMsg.missing l ∈ log_list_difference actual expected ↔
      (l = sortedSetDiff expected actual ∧ l ≠ [])) ∧
    (log_list_difference actual expected).countP isMissingMsg =
      (if sortedSetDiff expected actual = [] then 0 else 1) ∧
    List.Sorted (· ≤ ·) (sortedSetDiff expected actual) ∧
    (∀ x, x ∈ sortedSetDiff expected actual ↔ (x ∈ expected ∧ x ∉ actual)) ∧
    (∀ l, LogMsg.extra l ∈ log_list_difference actual expected ↔
      (l = sortedSetDiff actual expected ∧ l ≠ [])) ∧
    (log_list_difference actual expected).countP isExtraMsg =
      (if sortedSetDiff actual expected = [] then 0 else 1) ∧
    List.Sorted (· ≤ ·) (sortedSetDiff actual expected) ∧
    (∀ x, x ∈ sortedSetDiff actual expected ↔ (x ∈ actual ∧ x ∉ expected)) ∧
    (∀ e, log_list_difference e e = []) ∧
    log_list_difference ["a", "b"] ["b", "c"] =
      [LogMsg.missing ["c"], LogMsg.extra ["a"]] := by
  refine ⟨?_, ?_, sorted_sortedSetDiff _ _, mem_sortedSetDiff _ _, ?_, ?_,
    sorted_sortedSetDiff _ _, mem_sortedSetDiff _ _, ?_, by decide⟩
  · intro l
    by_cases hm : sortedSetDiff expected actual = [] <;>
      by_cases hx : sortedSetDiff actual expected = [] <;>
        simp [log_list_difference, hm, hx] <;> aesop
  · by_cases hm : sortedSetDiff expected actual = [] <;>
      by_cases hx : sortedSetDiff actual expected = [] <;>
        simp [log_list_difference, hm, hx, isMissingMsg]
  · intro l
    by_cases hm : sortedSetDiff expected actual = [] <;>
      by_cases hx : sortedSetDiff actual expected = [] <;>
        simp [log_list_difference, hm, hx] <;> aesop
  · by_cases hm : sortedSetDiff expected actual = [] <;>
      by_cases hx : sortedSetDiff actual expected = [] <;>
        simp [log_list_difference, hm, hx, isExtraMsg]
  · intro e
    simp [log_list_difference, sortedSetDiff_self]

/-- C10: `log_list_difference` compares with set semantics — replacing
either argument by any list with the same members (so permuting it or
duplicating its elements) leaves the logged reports unchanged. -/
theorem C10_log_list_difference_set_semantics (a a' e e' : List String)
    (ha : ∀ x, x ∈ a ↔ x ∈ a') (he : ∀ x, x ∈ e ↔ x ∈ e') :
    log_list_difference a e = log_list_difference a' e' := by
  unfold log_list_difference
  rw [sortedSetDiff_congr he ha, sortedSetDiff_congr ha he]

/-- C10 witness: a list with a duplicated element and permuted order, and an
expected list with a duplicated element, produce the same reports. -/
theorem C10_log_list_difference_set_semantics_witness :
    log_list_difference ["a", "a"] ["b"] =
      log_list_difference ["a"] ["b", "b"] := by
  apply C10_log_list_difference_set_semantics
  · intro x
    simp
  · intro x
    simp

theorem containsKey_cons (e : FPath × FsNode) (t : FileSystem) (p : FPath) :
    containsKey (e :: t) p = (decide (e.1 = p) || containsKey t p) := rfl

theorem containsKey_cons_true {e : FPath × FsNode} {t : FileSystem}
    {p : FPath} (h : containsKey (e :: t) p = true) :
    e.1 = p ∨ containsKey t p = true := by
  rw [containsKey_cons, Bool.or_eq_true, decide_eq_true_eq] at h
  exact h

theorem containsKey_cons_false {e : FPath × FsNode} {t : FileSystem}
    {p : FPath} (h : containsKey (e :: t) p = false) :
    ¬ e.1 = p ∧ containsKey t p = false := by
  rw [containsKey_cons, Bool.or_eq_false_iff, decide_eq_false_iff_not] at h
  exact h

theorem lookup_map_set (fs : FileSystem) (p : FPath) (c : FsNode)
    (h : containsKey fs p = true) :
    lookupFs (fs.map (fun e => if e.1 = p then (e.1, c) else e)) p = some c := by
  induction fs with
  | nil => exact Bool.noConfusion h
  | cons e t ih =>
    by_cases he : e.1 = p
    · simp [lookupFs, he]
    · have ht : containsKey t p = true := (containsKey_cons_true h).resolve_left he
      simp [lookupFs, he, ih ht]

theorem lookup_map_set_ne (fs : FileSystem) (p q : FPath) (c : FsNode)
    (h : p ≠ q) :
    lookupFs (fs.map (fun e => if e.1 = p then (e.1, c) else e)) q =
      lookupFs fs q := by
  induction fs with
  | nil => rfl
  | cons e t ih =>
    by_cases he : e.1 = p
    · have hq : ¬ e.1 = q := fun hc => h (he.symm.trans hc)
      simp [lookupFs, he, hq, h, ih]
    · by_cases heq : e.1 = q
      · have hqp : ¬ q = p := fun hc => h hc.symm
        simp [lookupFs, he, heq, hqp]
      · simp [lookupFs, he, heq, ih]

theorem lookup_append_single_ne (fs : FileSystem) (p q : FPath) (c : FsNode)
    (h : p ≠ q) : lookupFs (fs ++ [(p, c)]) q = lookupFs fs q := by
  induction fs with
  | nil => simp [lookupFs, h]
  | cons e t ih =>
    by_cases he : e.1 = q
    · simp [lookupFs, he]
    · simp [lookupFs, he, ih]

theorem lookup_append_single_self (fs : FileSystem) (p : FPath) (c : FsNode)
    (h : containsKey fs p = false) :
    lookupFs (fs ++ [(p, c)]) p = some c := by
  induction fs with
  | nil => simp [lookupFs]
  | cons e t ih =>
    have hh := containsKey_cons_false h
    simp [lookupFs, hh.1, ih hh.2]

theorem lookup_setk_self (fs : FileSystem) (p : FPath) (c : FsNode) :
    lookupFs (setk fs p c) p = some c := by
  unfold setk
  by_cases h : containsKey fs p
  · rw [if_pos h]
    exact lookup_map_set fs p c h
  · rw [if_neg h]
    exact lookup_append_single_self fs p c (by simpa using h)

theorem lookup_setk_ne (fs : FileSystem) (p q : FPath) (c : FsNode)
    (h : p ≠ q) : lookupFs (setk fs p c) q = lookupFs fs q := by
  unfold setk
  by_cases hc : containsKey fs p
  · rw [if_pos hc]
    exact lookup_map_set_ne fs p q c h
  · rw [if_neg hc]
    exact lookup_append_single_ne fs p q c h

theorem index_paths_ne (base_dir : FPath) :
    index_sources_json base_dir ≠ index_datasets_json base_dir := by
  intro h
  unfold index_sources_json index_datasets_json at h
  have h2 := List.append_cancel_left h
  simp at h2

/-- C7: the dataset index document is an ordered mapping with exactly the
keys info, data, files in that order — info the catalog-wide metadata, data
the dataset record list, files the tree scan — and the sources index
document has exactly the keys info and data in that order, with no files
key. -/
theorem C7_index_document_shapes {Meta : Type} (env : MakerEnv Meta)
    (fs : FileSystem) :
    lookupFs (make_index_files_datasets env fs)
        (index_datasets_json env.base_dir) =
      some (FsNode.file (FileContent.json (JValue.obj
        [("info", JValue.obj env.info_dict),
         ("data", JValue.arr env.datasets_data),
         ("files", JValue.arr
           ((list_of_files fs (outputPath env.base_dir) matchAll).map
             JValue.str))]))) ∧
    ([("info", JValue.obj env.info_dict),
      ("data", JValue.arr env.datasets_data),
      ("files", JValue.arr
        ((list_of_files fs (outputPath env.base_dir) matchAll).map
          JValue.str))].map Prod.fst) = ["info", "data", "files"] ∧
    lookupFs (make_index_files_sources env fs)
        (index_sources_json env.base_dir) =
      some (FsNode.file (FileContent.json (JValue.obj
        [("info", JValue.obj env.info_dict),
         ("data", JValue.arr env.sources_data)]))) ∧
    ([("info", JValue.obj env.info_dict),
      ("data", JValue.arr env.sources_data)].map Prod.fst) =
      ["info", "data"] ∧
    "files" ∉ ([("info", JValue.obj env.info_dict),
      ("data", JValue.arr env.sources_data)].map Prod.fst) := by
  refine ⟨?_, rfl, ?_, rfl, by simp⟩
  · exact lookup_setk_self fs (index_datasets_json env.base_dir) _
  · exact lookup_setk_self fs (index_sources_json env.base_dir) _

/-- C1: `make_all` is exactly `make_sed_files`, then the datasets index,
then the sources index, in that order, and the files list recorded in the
dataset index equals the recursive scan of the output tree taken after
every SED file has been written. -/
theorem C1_make_all_order_and_files {Meta : Type} (env : MakerEnv Meta)
    (fs : FileSystem) :
    make_all env fs =
      make_index_files_sources env
        (make_index_files_datasets env (make_sed_files env fs)) ∧
    lookupFs (make_all env fs) (index_datasets_json env.base_dir) =
      some (FsNode.file (FileContent.json (JValue.obj
        [("info", JValue.obj env.info_dict),
         ("data", JValue.arr env.datasets_data),
         ("files", JValue.arr
           ((list_of_files (make_sed_files env fs)
             (outputPath env.base_dir) matchAll).map JValue.str))]))) := by
  refine ⟨rfl, ?_⟩
  have h1 : lookupFs (make_all env fs) (index_datasets_json env.base_dir) =
      lookupFs (make_index_files_datasets env (make_sed_files env fs))
        (index_datasets_json env.base_dir) :=
    lookup_setk_ne _ _ _ _ (index_paths_ne env.base_dir)
  rw [h1]
  exact lookup_setk_self _ (index_datasets_json env.base_dir) _

theorem stripRoot_eq_some (root : FPath) :
    ∀ (p rel : FPath), stripRoot root p = some rel ↔ p = root ++ rel := by
  induction root with
  | nil =>
    intro p rel
    simp [stripRoot]
  | cons r rs ih =>
    intro p rel
    cases p with
    | nil => simp [stripRoot]
    | cons x xs =>
      by_cases hx : r = x
      · subst hx
        simp [stripRoot, ih xs rel]
      · simp [stripRoot, hx]
        exact fun hxr _ => hx hxr.symm

/-- C8: every entry `list_of_files` returns is the rendering of a path `p`
relative to the root, such that `root ++ p` holds a regular file — never a
directory — whose final component matches the pattern, and `p` is a
nonempty genuine descendant path. -/
theorem C8_list_of_files_only_files (fs : FileSystem) (root : FPath)
    (pat : String → Bool) (s : String)
    (h : s ∈ list_of_files fs root pat) :
    ∃ p c, s = pathStr p ∧ p ≠ [] ∧
      (root ++ p, FsNode.file c) ∈ fs ∧
      pat ((root ++ p).getLastD "") = true := by
  unfold list_of_files at h
  rw [List.mem_map] at h
  obtain ⟨e, he, heq⟩ := h
  rw [List.mem_filter] at he
  obtain ⟨her, hfile⟩ := he
  unfold rglob at her
  rw [List.mem_filter] at her
  obtain ⟨hmem, hcond⟩ := her
  cases hsr : stripRoot root e.1 with
  | none => rw [hsr] at hcond; exact absurd hcond (by simp)
  | some rel =>
    rw [hsr] at hcond
    have hp : e.1 = root ++ rel := (stripRoot_eq_some root e.1 rel).mp hsr
    have hrel : ¬ rel.isEmpty := by
      intro hempty
      rw [Bool.and_eq_true] at hcond
      rw [hempty] at hcond
      exact Bool.noConfusion hcond.1
    cases hnode : e.2 with
    | dir => rw [hnode] at hfile; exact absurd hfile (by simp [isFileNode])
    | file c =>
      refine ⟨rel, c, ?_, ?_, ?_, ?_⟩
      · rw [← heq, hp, List.drop_left]
      · intro hnil
        exact hrel (by simp [hnil])
      · have : e = (root ++ rel, FsNode.file c) := by
          cases e with
          | mk a b =>
            simp at hp hnode
            rw [hp, hnode]
        rw [← this]
        exact hmem
      · rw [← hp]
        rw [Bool.and_eq_true] at hcond
        exact hcond.2

/-- C8 witness: on a concrete tree holding one file and one directory under
the root, the returned entry is the file, relative to the root. -/
theorem C8_list_of_files_only_files_witness :
    ∃ p c, "a.txt" = pathStr p ∧ p ≠ [] ∧
      (["r"] ++ p, FsNode.file c) ∈ fsW ∧
      matchAll ((["r"] ++ p).getLastD "") = true :=
  C8_list_of_files_only_files fsW ["r"] matchAll "a.txt" (by decide)

theorem mapExcept_sed_ok {Meta : Type} (tag : GammacatTag Meta)
    (base_dir : FPath) (ms : List Meta) :
    mapExcept (fun m => make_filename tag base_dir m "sed" true) ms =
      Except.ok (ms.map (fun m => ["sources", tag.source_str m,
        tag.source_dataset_filename m ++ "_sed.ecsv"])) := by
  induction ms with
  | nil => rfl
  | cons m rest ih =>
    unfold mapExcept
    rw [make_filename_sed tag base_dir m true, ih]
    rfl

/-- C2: `validate_list_of_files` never raises — it always completes with
`Except.ok` — and its log is exactly the comparison of the tree scan
against the stored index files list, followed by the comparison of the same
scan against the freshly derived expectation: the six fixed top-level
filenames plus the relative SED filename of every SED entity of the re-read
input collection. -/
theorem C2_validate_list_of_files_shape {Meta : Type}
    (env : ValidationEnv Meta) :
    validate_list_of_files env =
      Except.ok
        (log_list_difference (actualFilesOf env) env.index_files ++
          log_list_difference (actualFilesOf env) (derivedExpectedOf env)) := by
  unfold validate_list_of_files
  rw [mapExcept_sed_ok env.tag env.base_dir env.sed_metas]
  show Except.ok _ = Except.ok _
  unfold actualFilesOf derivedExpectedOf
  rw [List.map_map]
  rfl

theorem containsKey_map_set (fs : FileSystem) (p : FPath) (c : FsNode)
    (q : FPath) :
    containsKey (fs.map (fun e => if e.1 = p then (e.1, c) else e)) q =
      containsKey fs q := by
  induction fs with
  | nil => rfl
  | cons e t ih =>
    by_cases he : e.1 = p <;>
      simp [containsKey_cons, he, ih]

theorem containsKey_append_single (fs : FileSystem) (p : FPath) (c : FsNode)
    (q : FPath) :
    containsKey (fs ++ [(p, c)]) q = (containsKey fs q || decide (p = q)) := by
  unfold containsKey
  rw [List.any_append]
  simp [containsKey]

theorem containsKey_setk (fs : FileSystem) (p : FPath) (c : FsNode)
    (q : FPath) :
    containsKey (setk fs p c) q = (containsKey fs q || decide (p = q)) := by
  unfold setk
  by_cases h : containsKey fs p
  · rw [if_pos h, containsKey_map_set]
    by_cases hpq : p = q
    · subst hpq
      rw [h]
      simp
    · simp [hpq]
  · rw [if_neg h]
    exact containsKey_append_single fs p c q

theorem containsKey_ensureDir (fs : FileSystem) (p q : FPath) :
    containsKey (ensureDir fs p) q =
      (containsKey fs q || (decide (p = q) && !containsKey fs p)) := by
  unfold ensureDir
  by_cases h : containsKey fs p
  · rw [if_pos h, h]
    simp
  · rw [if_neg h, containsKey_append_single]
    simp [(by simpa using h : containsKey fs p = false)]

theorem containsKey_applyOp_mono (fs : FileSystem) (op : FsOp) (q : FPath)
    (h : containsKey fs q = true) : containsKey (applyOp fs op) q = true := by
  cases op with
  | write p c => rw [applyOp, containsKey_setk, h]; rfl
  | ensure p => rw [applyOp, containsKey_ensureDir, h]; rfl

theorem containsKey_applyOp_selfkey (fs : FileSystem) (op : FsOp) :
    containsKey (applyOp fs op) op.key = true := by
  cases op with
  | write p c =>
    rw [applyOp, containsKey_setk]
    simp [FsOp.key]
  | ensure p =>
    rw [applyOp, containsKey_ensureDir]
    by_cases h : containsKey fs p <;> simp [FsOp.key, h]

theorem containsKey_applyOps_mono (ops : List FsOp) :
    ∀ (fs : FileSystem) (q : FPath), containsKey fs q = true →
      containsKey (applyOps fs ops) q = true := by
  induction ops with
  | nil => exact fun fs q h => h
  | cons op rest ih =>
    intro fs q h
    exact ih (applyOp fs op) q (containsKey_applyOp_mono fs op q h)

theorem containsKey_applyOps_of_mem (ops : List FsOp) :
    ∀ (fs : FileSystem) (op : FsOp), op ∈ ops →
      containsKey (applyOps fs ops) op.key = true := by
  induction ops with
  | nil => intro fs op h; exact absurd h (List.not_mem_nil op)
  | cons o rest ih =>
    intro fs op h
    rcases List.mem_cons.mp h with h | h
    · subst h
      exact containsKey_applyOps_mono rest (applyOp fs op) op.key
        (containsKey_applyOp_selfkey fs op)
    · exact ih (applyOp fs o) op h

theorem finalWrite_ensure_cons (p : FPath) (rest : List FsOp) (k : FPath) :
    finalWrite (FsOp.ensure p :: rest) k = finalWrite rest k := by
  cases h : finalWrite rest k <;> simp [finalWrite, h]

theorem finalWrite_cons_of_some {rest : List FsOp} {k : FPath} {c : FsNode}
    (op : FsOp) (h : finalWrite rest k = some c) :
    finalWrite (op :: rest) k = some c := by
  cases op <;> simp [finalWrite, h]

theorem finalWrite_write_cons_of_none {rest : List FsOp} {k : FPath}
    (p : FPath) (c : FsNode) (h : finalWrite rest k = none) :
    finalWrite (FsOp.write p c :: rest) k =
      (if p = k then some c else none) := by
  simp [finalWrite, h]

theorem updVals_nil (fs : FileSystem) : updVals fs [] = fs := by
  show fs.map (fun e => e) = fs
  simp

theorem mem_setk_self {fs : FileSystem} {k : FPath} {v c : FsNode}
    (h : (k, v) ∈ setk fs k c) : v = c := by
  unfold setk at h
  by_cases hc : containsKey fs k
  · rw [if_pos hc, List.mem_map] at h
    obtain ⟨e, _, he⟩ := h
    by_cases hek : e.1 = k
    · rw [if_pos hek] at he
      exact (congrArg Prod.snd he).symm
    · rw [if_neg hek] at he
      exact absurd (congrArg Prod.fst he) hek
  · rw [if_neg hc, List.mem_append] at h
    rcases h with h | h
    · have : containsKey fs k = true := by
        rw [containsKey, List.any_eq_true]
        exact ⟨(k, v), h, by simp⟩
      exact absurd this hc
    · simp at h
      exact h

theorem mem_setk_ne {fs : FileSystem} {k p : FPath} {v c : FsNode}
    (hne : ¬ k = p) (h : (k, v) ∈ setk fs p c) : (k, v) ∈ fs := by
  unfold setk at h
  by_cases hc : containsKey fs p
  · rw [if_pos hc, List.mem_map] at h
    obtain ⟨e, hmem, he⟩ := h
    by_cases hep : e.1 = p
    · rw [if_pos hep] at he
      exact absurd (congrArg Prod.fst he).symm (hep ▸ hne)
    · rw [if_neg hep] at he
      rw [← he]
      exact hmem
  · rw [if_neg hc, List.mem_append] at h
    rcases h with h | h
    · exact h
    · simp at h
      exact absurd h.1 hne

theorem mem_ensureDir_elim {fs : FileSystem} {k p : FPath} {v : FsNode}
    (h : (k, v) ∈ ensureDir fs p) :
    (k, v) ∈ fs ∨ (k = p ∧ containsKey fs p = false) := by
  unfold ensureDir at h
  by_cases hc : containsKey fs p
  · rw [if_pos hc] at h
    exact Or.inl h
  · rw [if_neg hc, List.mem_append] at h
    rcases h with h | h
    · exact Or.inl h
    · simp at h
      exact Or.inr ⟨h.1, by simpa using hc⟩

theorem mem_applyOps_no_write (ops : List FsOp) :
    ∀ (fs : FileSystem) (k : FPath) (v : FsNode),
      containsKey fs k = true → finalWrite ops k = none →
      (k, v) ∈ applyOps fs ops → (k, v) ∈ fs := by
  induction ops with
  | nil => exact fun fs k v _ _ h => h
  | cons op rest ih =>
    intro fs k v hk hnw h
    cases op with
    | ensure p =>
      rw [finalWrite_ensure_cons] at hnw
      have h2 : (k, v) ∈ ensureDir fs p :=
        ih (ensureDir fs p) k v
          (containsKey_applyOp_mono fs (FsOp.ensure p) k hk) hnw h
      rcases mem_ensureDir_elim h2 with h3 | h3
      · exact h3
      · rw [h3.1] at hk
        rw [hk] at h3
        exact absurd h3.2 (by simp)
    | write p c =>
      have hrest : finalWrite rest k = none := by
        cases hr : finalWrite rest k with
        | none => rfl
        | some d => rw [finalWrite_cons_of_some _ hr] at hnw; exact hnw
      have hpk : ¬ p = k := by
        rw [finalWrite_write_cons_of_none p c hrest] at hnw
        intro hpk
        rw [if_pos hpk] at hnw
        exact Option.noConfusion hnw
      have h2 : (k, v) ∈ setk fs p c :=
        ih (setk fs p c) k v
          (containsKey_applyOp_mono fs (FsOp.write p c) k hk) hrest h
      exact mem_setk_ne (fun hc => hpk hc.symm) h2

theorem val_of_finalWrite (ops : List FsOp) :
    ∀ (fs : FileSystem) (k : FPath) (v c : FsNode),
      finalWrite ops k = some c → (k, v) ∈ applyOps fs ops → v = c := by
  induction ops with
  | nil =>
    intro fs k v c hw
    exact absurd hw (by simp [finalWrite])
  | cons op rest ih =>
    intro fs k v c hw h
    cases hr : finalWrite rest k with
    | some d =>
      have : finalWrite (op :: rest) k = some d := finalWrite_cons_of_some op hr
      rw [this] at hw
      have hdc : d = c := Option.some.inj hw
      subst hdc
      exact ih (applyOp fs op) k v d hr h
    | none =>
      cases op with
      | ensure p =>
        rw [finalWrite_ensure_cons, hr] at hw
        exact Option.noConfusion hw
      | write p c0 =>
        rw [finalWrite_write_cons_of_none p c0 hr] at hw
        by_cases hpk : p = k
        · rw [if_pos hpk] at hw
          have hc0 : c0 = c := Option.some.inj hw
          subst hc0
          subst hpk
          have h2 : (p, v) ∈ setk fs p c0 :=
            mem_applyOps_no_write rest (setk fs p c0) p v
              (by
                have hself := containsKey_applyOp_selfkey fs (FsOp.write p c0)
                simpa [applyOp, FsOp.key] using hself) hr h
          exact mem_setk_self h2
        · rw [if_neg hpk] at hw
          exact Option.noConfusion hw

theorem applyOps_eq_updVals (ops : List FsOp) :
    ∀ (fs : FileSystem), (∀ op ∈ ops, containsKey fs op.key = true) →
      applyOps fs ops = updVals fs ops := by
  induction ops with
  | nil =>
    intro fs _
    rw [updVals_nil]
    rfl
  | cons op rest ih =>
    intro fs h
    cases op with
    | ensure p =>
      have hp : containsKey fs p = true := by
        have hh := h (FsOp.ensure p) (List.mem_cons_self _ _)
        simpa [FsOp.key] using hh
      have hstep : applyOp fs (FsOp.ensure p) = fs := by
        simp [applyOp, ensureDir, hp]
      show applyOps (applyOp fs (FsOp.ensure p)) rest = _
      rw [hstep, ih fs (fun o ho => h o (List.mem_cons_of_mem _ ho))]
      unfold updVals
      apply List.map_congr_left
      intro e _
      rw [finalWrite_ensure_cons]
    | write p c =>
      have hp : containsKey fs p = true := by
        have hh := h (FsOp.write p c) (List.mem_cons_self _ _)
        simpa [FsOp.key] using hh
      have hstep : applyOp fs (FsOp.write p c) =
          fs.map (fun e => if e.1 = p then (e.1, c) else e) := by
        simp [applyOp, setk, hp]
      show applyOps (applyOp fs (FsOp.write p c)) rest = _
      rw [hstep]
      have hpres : ∀ o ∈ rest,
          containsKey (fs.map (fun e => if e.1 = p then (e.1, c) else e))
            o.key = true := by
        intro o ho
        rw [containsKey_map_set]
        exact h o (List.mem_cons_of_mem _ ho)
      rw [ih _ hpres]
      unfold updVals
      rw [List.map_map]
      apply List.map_congr_left
      intro e _
      by_cases hek : e.1 = p
      · cases hr2 : finalWrite rest e.1 with
        | some d =>
          rw [hek] at hr2
          have hw := finalWrite_cons_of_some (FsOp.write p c) hr2
          simp [Function.comp, hek, hr2, hw]
        | none =>
          rw [hek] at hr2
          have hw := finalWrite_write_cons_of_none p c hr2
          rw [if_pos rfl] at hw
          simp [Function.comp, hek, hr2, hw]
      · have hpe : ¬ p = e.1 := fun hc => hek hc.symm
        cases hr : finalWrite rest e.1 with
        | some d =>
          have hw := finalWrite_cons_of_some (FsOp.write p c) hr
          simp [Function.comp, hek, hr, hw]
        | none =>
          have hw := finalWrite_write_cons_of_none p c hr
          rw [if_neg hpe] at hw
          simp [Function.comp, hek, hr, hw]

theorem applyOps_idem (fs : FileSystem) (ops : List FsOp) :
    applyOps (applyOps fs ops) ops = applyOps fs ops := by
  have hpres : ∀ op ∈ ops, containsKey (applyOps fs ops) op.key = true :=
    fun op ho => containsKey_applyOps_of_mem ops fs op ho
  rw [applyOps_eq_updVals ops (applyOps fs ops) hpres]
  unfold updVals
  have hid : ∀ e ∈ applyOps fs ops,
      (match finalWrite ops e.1 with
       | some c => (e.1, c)
       | none => e) = e := by
    intro e he
    obtain ⟨k, v⟩ := e
    cases hw : finalWrite ops k with
    | none => simp
    | some c =>
      have hv : v = c := val_of_finalWrite ops fs k v c hw he
      simp [hv]
  rw [List.map_congr_left hid]
  simp

theorem foldl_applyOps {α : Type} (f : FileSystem → α → FileSystem)
    (g : α → List FsOp) (hfg : ∀ fs a, f fs a = applyOps fs (g a)) :
    ∀ (l : List α) (fs : FileSystem),
      l.foldl f fs = applyOps fs (l.flatMap g) := by
  intro l
  induction l with
  | nil =>
    intro fs
    rfl
  | cons a rest ih =>
    intro fs
    show rest.foldl f (f fs a) = _
    rw [ih (f fs a), hfg fs a, List.flatMap_cons, applyOps, applyOps,
      applyOps, List.foldl_append]

theorem make_sed_files_eq_applyOps {Meta : Type} (env : MakerEnv Meta)
    (fs : FileSystem) : make_sed_files env fs = applyOps fs (sedOps env) := by
  unfold make_sed_files sedOps
  refine foldl_applyOps _ _ ?_ env.seds fs
  intro fs a
  dsimp only
  rw [applyOps, List.foldl_append, List.foldl_map]
  rfl

/-- C9: a second run of `make_sed_files` against the same unchanged input
leaves the tree exactly as the first run left it — every SED file is
overwritten with identical content, nothing new appears — and so the file
scan recorded into the index is also unchanged, with no duplicate entries
introduced. -/
theorem C9_make_sed_files_idempotent {Meta : Type} (env : MakerEnv Meta)
    (fs : FileSystem) :
    make_sed_files env (make_sed_files env fs) = make_sed_files env fs ∧
    list_of_files (make_sed_files env (make_sed_files env fs))
        (outputPath env.base_dir) matchAll =
      list_of_files (make_sed_files env fs)
        (outputPath env.base_dir) matchAll := by
  have h : make_sed_files env (make_sed_files env fs) =
      make_sed_files env fs := by
    rw [make_sed_files_eq_applyOps, make_sed_files_eq_applyOps]
    exact applyOps_idem fs (sedOps env)
  exact ⟨h, by rw [h]⟩
